import Mathlib

/-!
Shallow embedding of `src/chat_server.js`, a small Express chat server for
tournament participants.  The persisted store (`messages.json`) is modelled as
an association list from conversation ids to conversations, JavaScript string
lowercasing (`String.prototype.toLowerCase`, which on the wallet/string domain
used here acts on the ASCII range) is modelled by `toLowerCase`, and each HTTP
handler becomes a pure function from the current store (plus request data and
the values the handler draws from the environment: fresh message id,
timestamp) to its response and the updated store.  A `Bool` component records
whether the handler called `writeMessages` (persisted the store).
-/

/-- ASCII lowercasing of one character, as JavaScript `toLowerCase` acts on
the ASCII letters: code points 65..90 are shifted by 32, all else is kept. -/
def lowerChar (c : Char) : Char :=
  if 65 ≤ c.toNat && c.toNat ≤ 90 then Char.ofNat (c.toNat + 32) else c

/-- Model of JavaScript `s.toLowerCase()` on the string domain of the server. -/
def toLowerCase (s : String) : String :=
  ⟨s.data.map lowerChar⟩

/-- One chat message, as built by the `POST /chat/send` handler
(`src/chat_server.js` lines 200-208). -/
structure Message where
  id : String
  «from» : String
  «to» : String
  message : String
  messageType : String
  timestamp : String
  read : Bool
deriving DecidableEq

/-- One conversation record of `messages.json`
(`src/chat_server.js` lines 192-198 and 217). -/
structure Conversation where
  participants : List String
  messages : List Message
  createdAt : String
  lastMessageAt : String
deriving DecidableEq

/-- The persisted `messages.json` content: the `conversations` object, as an
association list from conversation id to conversation (JavaScript objects
preserve key insertion order). -/
abbrev Store := List (String × Conversation)

/-- Lexicographic comparison of character sequences by code unit, as the
default JavaScript array sort comparator orders strings. -/
def charListLe : List Char → List Char → Bool
  | [], _ => true
  | _ :: _, [] => false
  | a :: as, b :: bs =>
    if a.toNat < b.toNat then true
    else if b.toNat < a.toNat then false
    else charListLe as bs

/-- String comparison used by the two-element `sort()` in
`getConversationId`. -/
def strLe (s t : String) : Bool :=
  charListLe s.data t.data

/-- `getConversationId` (`src/chat_server.js` lines 65-68): lowercase both
wallets, sort the two, join with an underscore. -/
def getConversationId (wallet1 wallet2 : String) : String :=
  let a := toLowerCase wallet1
  let b := toLowerCase wallet2
  if strLe a b then a ++ "_" ++ b else b ++ "_" ++ a

/-- Lookup `messagesData.conversations[conversationId]`. -/
def findConv (store : Store) (cid : String) : Option Conversation :=
  (store.find? (fun p => p.1 == cid)).map (fun p => p.2)

/-- Assignment `messagesData.conversations[conversationId] = c`: overwrite the
entry when the key is present, append it otherwise. -/
def setConv (store : Store) (cid : String) (c : Conversation) : Store :=
  if store.any (fun p => p.1 == cid) then
    store.map (fun p => if p.1 == cid then (cid, c) else p)
  else
    store ++ [(cid, c)]

/-- The request body of `POST /chat/send` together with the two
environment-supplied values the handler uses: the generated message id and the
current timestamp.  An absent `from`/`to`/`message` body field is modelled as
the empty string (both are falsy in the JavaScript check on line 185); the
optional `messageType` keeps its optionality. -/
structure SendArgs where
  «from» : String
  «to» : String
  message : String
  messageType : Option String
  msgId : String
  now : String
deriving DecidableEq

/-- The `newMessage` object of `src/chat_server.js` lines 200-208. -/
def newMessageOf (a : SendArgs) : Message :=
  { id := a.msgId, «from» := toLowerCase a.«from», «to» := toLowerCase a.«to»,
    message := a.message, messageType := a.messageType.getD "text",
    timestamp := a.now, read := false }

/-- Truncation of the message list after a push
(`src/chat_server.js` lines 212-215): keep only the last three (`slice(-3)`). -/
def truncate3 (l : List Message) : List Message :=
  if l.length > 3 then l.drop (l.length - 3) else l

/-- The `POST /chat/send` handler (`src/chat_server.js` lines 181-230).
Returns the created message and the updated store, or the 400 error text when
a required field is missing or empty. -/
def sendMessage (store : Store) (a : SendArgs) : Except String (Store × Message) :=
  if a.«from» = "" ∨ a.«to» = "" ∨ a.message = "" then
    Except.error "From, to, and message are required"
  else
    let conversationId := getConversationId a.«from» a.«to»
    let conv :=
      match findConv store conversationId with
      | some c => c
      | none =>
        { participants := [toLowerCase a.«from», toLowerCase a.«to»],
          messages := [], createdAt := a.now, lastMessageAt := a.now }
    let newMessage := newMessageOf a
    let msgs := truncate3 (conv.messages ++ [newMessage])
    let conv2 := { conv with messages := msgs, lastMessageAt := a.now }
    Except.ok (setConv store conversationId conv2, newMessage)

/-- The store after a `POST /chat/send` request: unchanged when the handler
answered 400, the updated store otherwise. -/
def doSend (store : Store) (a : SendArgs) : Store :=
  match sendMessage store a with
  | Except.ok r => r.1
  | Except.error _ => store

/-- A sequence of `POST /chat/send` requests. -/
def doSends (store : Store) (l : List SendArgs) : Store :=
  l.foldl doSend store

/-- The JSON body answered by `GET /chat/conversation/:wallet1/:wallet2`. -/
structure ConvResponse where
  conversationId : String
  messages : List Message
  participants : List String
deriving DecidableEq

/-- The per-message mark-read update of `src/chat_server.js` lines 160-164:
a message addressed (case-insensitively) to the requesting wallet gets
`read = true`. -/
def markRead (wallet1 : String) (m : Message) : Message :=
  if toLowerCase m.«to» = toLowerCase wallet1 then { m with read := true } else m

/-- The `GET /chat/conversation/:wallet1/:wallet2` handler
(`src/chat_server.js` lines 142-178).  Result: the response body, the store
after the request, and whether `writeMessages` was called.  When the
conversation exists its `messages` field is an array (always truthy in the
line 159 check), so the handler marks and persists unconditionally. -/
def getConversation (store : Store) (wallet1 wallet2 : String) :
    ConvResponse × Store × Bool :=
  let conversationId := getConversationId wallet1 wallet2
  match findConv store conversationId with
  | none =>
    ({ conversationId := conversationId, messages := [],
       participants := [toLowerCase wallet1, toLowerCase wallet2] }, store, false)
  | some conversation =>
    let msgs := conversation.messages.map (markRead wallet1)
    ({ conversationId := conversationId, messages := msgs,
       participants := conversation.participants },
     setConv store conversationId { conversation with messages := msgs }, true)

/-- The `GET /chat/unread/:walletAddress` handler
(`src/chat_server.js` lines 233-255): fold of `totalUnread +=` over the
conversation values, adding for each conversation whose `participants`
contains the lowercased wallet the number of messages with
`to === userWallet` (strict) and `read` false. -/
def getUnreadCount (store : Store) (walletAddress : String) : Nat :=
  let userWallet := toLowerCase walletAddress
  store.foldl (fun totalUnread pc =>
    if userWallet ∈ pc.2.participants then
      totalUnread +
        (pc.2.messages.filter (fun m => m.«to» == userWallet && !m.read)).length
    else totalUnread) 0

/-- One participant record of the roster data fetched from the tournament
backend (`gamesData`); `gamertags` is opaque to this server and kept as one
string. -/
structure Participant where
  walletAddress : String
  platformUsername : String
  gamertags : String
deriving DecidableEq

/-- One tournament of the roster data; an absent `participants` array is
modelled as the empty list (both make the line 91 `some` test fail). -/
structure Tournament where
  participants : List Participant
  status : String
deriving DecidableEq

/-- One game of the roster data; an absent `tournaments` object is modelled
as the empty list. -/
structure Game where
  tournaments : List Tournament
deriving DecidableEq

/-- The value stored into the `availableUsers` map
(`src/chat_server.js` lines 99-103). -/
structure AvailableUser where
  walletAddress : String
  platformUsername : String
  gamertags : String
deriving DecidableEq

/-- The object literal of `src/chat_server.js` lines 99-103. -/
def userOf (p : Participant) : AvailableUser :=
  { walletAddress := p.walletAddress, platformUsername := p.platformUsername,
    gamertags := p.gamertags }

/-- The body of the inner `participants.forEach` of
`src/chat_server.js` lines 96-105: insert a participant into the
`availableUsers` map (modelled as an insertion-ordered association list,
as a JavaScript `Map` iterates in insertion order) unless it is the
requesting user or its lowercased wallet is already a key. -/
def insertUser (userWallet : String) (acc : List (String × AvailableUser))
    (participant : Participant) : List (String × AvailableUser) :=
  let pWallet := toLowerCase participant.walletAddress
  if pWallet != userWallet && !(acc.any (fun q => q.1 == pWallet)) then
    acc ++ [(pWallet, userOf participant)]
  else acc

/-- The nested `forEach` loops of `src/chat_server.js` lines 88-109 building
the `availableUsers` map from the roster data. -/
def collectUsers (gamesData : List Game) (userWallet : String) :
    List (String × AvailableUser) :=
  gamesData.foldl (fun acc game =>
    game.tournaments.foldl (fun acc2 tournament =>
      let isParticipant := tournament.participants.any
        (fun p => toLowerCase p.walletAddress == userWallet)
      if isParticipant && tournament.status != "finished" then
        tournament.participants.foldl (insertUser userWallet) acc2
      else acc2) acc) []

/-- One element of the `users` array answered by
`GET /chat/available-users/:walletAddress` (`src/chat_server.js` lines
113-128): the stored user record spread together with `unreadCount`. -/
structure UserWithUnread where
  walletAddress : String
  platformUsername : String
  gamertags : String
  unreadCount : Nat
deriving DecidableEq

/-- The messages of the conversation stored under `cid` (empty when the
conversation is absent). -/
def convMessages (store : Store) (cid : String) : List Message :=
  match findConv store cid with
  | none => []
  | some c => c.messages

/-- The per-peer unread computation of `src/chat_server.js` lines 114-122:
messages of the conversation of `userWallet` (already lowercased by the
handler) and the peer whose `to` lowercased equals `userWallet` and which are
unread. -/
def conversationUnread (store : Store) (userWallet peerWallet : String) : Nat :=
  match findConv store (getConversationId userWallet peerWallet) with
  | none => 0
  | some conversation =>
    (conversation.messages.filter
      (fun m => toLowerCase m.«to» == userWallet && !m.read)).length

/-- The `users` array answered by `GET /chat/available-users/:walletAddress`
(`src/chat_server.js` lines 73-139, success path). -/
def listAvailablePeers (gamesData : List Game) (store : Store)
    (walletAddress : String) : List UserWithUnread :=
  let userWallet := toLowerCase walletAddress
  (collectUsers gamesData userWallet).map (fun p =>
    { walletAddress := p.2.walletAddress,
      platformUsername := p.2.platformUsername,
      gamertags := p.2.gamertags,
      unreadCount := conversationUnread store userWallet p.2.walletAddress })

/-- The store-relevant requests the server accepts.  The two read-only
endpoints are included so that statements ranging over all operations cover
them; they never call `writeMessages`. -/
inductive Op where
  | send (a : SendArgs)
  | getConv (wallet1 wallet2 : String)
  | unread (walletAddress : String)
  | listPeers (gamesData : List Game) (walletAddress : String)

/-- The store after one request. -/
def applyOp (store : Store) : Op → Store
  | Op.send a => doSend store a
  | Op.getConv w1 w2 => (getConversation store w1 w2).2.1
  | Op.unread _ => store
  | Op.listPeers _ _ => store

/-- Stores reachable from the empty store (the `readMessages` default,
`src/chat_server.js` line 37) through a sequence of requests. -/
inductive Reachable : Store → Prop where
  | init : Reachable []
  | step {s : Store} (op : Op) : Reachable s → Reachable (applyOp s op)

/-- Specification-side unread total: the sum, over the conversations whose
participant list contains the canonicalized wallet up to canonicalization, of
the messages addressed (case-insensitively) to the wallet and unread.  Used
to compare the handler, whose comparisons are strict. -/
def unreadSpec (store : Store) (wallet : String) : Nat :=
  (store.map (fun pc =>
    if toLowerCase wallet ∈ pc.2.participants.map toLowerCase then
      (pc.2.messages.filter
        (fun m => toLowerCase m.«to» == toLowerCase wallet && !m.read)).length
    else 0)).sum

/-- Specification-side per-conversation unread count (`countForPair` of the
specification): messages of the conversation addressed (case-insensitively)
to the wallet and unread. -/
def countForPair (store : Store) (cid wallet : String) : Nat :=
  ((convMessages store cid).filter
    (fun m => toLowerCase m.«to» == toLowerCase wallet && !m.read)).length

/-- Specification-side flattening of the roster: the participants of every
tournament that the requesting (lowercased) wallet participates in and whose
status is not `finished`, in roster order.  Used to state de-duplication with
first occurrence winning. -/
def eligibleRoster (gamesData : List Game) (userWallet : String) :
    List Participant :=
  gamesData.flatMap (fun game => game.tournaments.flatMap (fun t =>
    if (t.participants.any (fun p => toLowerCase p.walletAddress == userWallet))
        && t.status != "finished"
    then t.participants else []))

/-- A JSON scalar, enough to describe the serialized user records. -/
inductive JVal where
  | str (s : String)
  | num (n : Nat)
deriving DecidableEq

/-- The JSON object serialized for one element of the `users` array: the
spread `...user` contributes the keys `walletAddress`, `platformUsername`,
`gamertags` in insertion order, then `unreadCount` follows
(`src/chat_server.js` lines 124-127). -/
def serializeUser (u : UserWithUnread) : List (String × JVal) :=
  [("walletAddress", JVal.str u.walletAddress),
   ("platformUsername", JVal.str u.platformUsername),
   ("gamertags", JVal.str u.gamertags),
   ("unreadCount", JVal.num u.unreadCount)]

/-- Lowercase-closed strings: fixed points of `toLowerCase`. -/
def LC (s : String) : Prop := toLowerCase s = s

/-- The invariant of reachable stores used throughout: conversation keys are
pairwise distinct, every conversation holds at most three messages, message
endpoints and participants are lowercase-closed. -/
def GoodConv (c : Conversation) : Prop :=
  c.messages.length ≤ 3 ∧
  (∀ m ∈ c.messages, LC m.«from» ∧ LC m.«to») ∧
  (∀ p ∈ c.participants, LC p)

/-- Store-level invariant: distinct keys and every conversation good. -/
def StoreInv (s : Store) : Prop :=
  (s.map Prod.fst).Nodup ∧ ∀ pc ∈ s, GoodConv pc.2

/-- Last `n` elements of a list. -/
def takeLast (n : Nat) (l : List α) : List α :=
  l.drop (l.length - n)

/-- Validity of a send request: the line 185 check passes. -/
def ValidSend (a : SendArgs) : Prop :=
  ¬(a.«from» = "" ∨ a.«to» = "" ∨ a.message = "")

instance (a : SendArgs) : Decidable (ValidSend a) := by
  unfold ValidSend
  infer_instance

/-- Concrete send requests used as witnesses. -/
def wSend1 : SendArgs :=
  { «from» := "a", «to» := "b", message := "hi", messageType := none,
    msgId := "m1", now := "t1" }

def wSend2 : SendArgs :=
  { «from» := "B", «to» := "a", message := "yo", messageType := none,
    msgId := "m2", now := "t2" }

def wSend3 : SendArgs :=
  { «from» := "a", «to» := "b", message := "sup", messageType := none,
    msgId := "m3", now := "t3" }

def wSend4 : SendArgs :=
  { «from» := "a", «to» := "b", message := "again", messageType := some "text",
    msgId := "m4", now := "t4" }

/-- Concrete invalid send request: empty sender. -/
def wSendEmpty : SendArgs :=
  { «from» := "", «to» := "B", message := "x", messageType := none,
    msgId := "m9", now := "t9" }

/-- Field preservation between an old and a new message: everything but the
read flag is unchanged, and the read flag never falls back from true. -/
def MsgEvolves (m m2 : Message) : Prop :=
  m2.id = m.id ∧ m2.«from» = m.«from» ∧ m2.«to» = m.«to» ∧
  m2.message = m.message ∧ m2.messageType = m.messageType ∧
  m2.timestamp = m.timestamp ∧ (m.read = true → m2.read = true)

/-- The conversation record created by the single send `wSend1`. -/
def convW1 : Conversation :=
  { participants := ["a", "b"],
    messages := [{ id := "m1", «from» := "a", «to» := "b", message := "hi",
                   messageType := "text", timestamp := "t1", read := false }],
    createdAt := "t1", lastMessageAt := "t1" }

/-- Send whose conversation key collides with a differently-split pair. -/
def wColl1 : SendArgs :=
  { «from» := "a_b", «to» := "c", message := "x", messageType := none,
    msgId := "c1", now := "u1" }

/-- Send between `a` and `b_c`, landing under the same key `a_b_c`. -/
def wColl2 : SendArgs :=
  { «from» := "a", «to» := "b_c", message := "y", messageType := none,
    msgId := "c2", now := "u2" }

/-- Per-conversation contribution to the unread endpoint total. -/
def unreadEntry (userWallet : String) (pc : String × Conversation) : Nat :=
  if userWallet ∈ pc.2.participants then
    (pc.2.messages.filter (fun m => m.«to» == userWallet && !m.read)).length
  else 0

/-- Roster participant used in witnesses. -/
def rosterA : Participant :=
  { walletAddress := "A", platformUsername := "ua", gamertags := "g1" }

/-- Roster participant used in witnesses. -/
def rosterB : Participant :=
  { walletAddress := "B", platformUsername := "ub", gamertags := "g2" }

/-- A roster with one active tournament containing `A` and `B`. -/
def gd0 : List Game :=
  [{ tournaments := [{ participants := [rosterA, rosterB],
                       status := "active" }] }]

/-- The single peer record listed for `A` under `gd0` and an empty store. -/
def userB : UserWithUnread :=
  { walletAddress := "B", platformUsername := "ub", gamertags := "g2",
    unreadCount := 0 }

theorem char_toNat_ofNat (n : Nat) (h : n.isValidChar) :
    (Char.ofNat n).toNat = n := by
  simp [Char.ofNat, h, Char.ofNatAux, Char.toNat, UInt32.toNat,
    BitVec.toNat_ofNatLt]

theorem lowerChar_idem (c : Char) : lowerChar (lowerChar c) = lowerChar c := by
  unfold lowerChar
  by_cases h : 65 ≤ c.toNat && c.toNat ≤ 90
  · simp only [h, if_true]
    have hb : 65 ≤ c.toNat ∧ c.toNat ≤ 90 := by
      simpa [Bool.and_eq_true, decide_eq_true_eq] using h
    have hv : (c.toNat + 32).isValidChar := Or.inl (by omega)
    have ht : (Char.ofNat (c.toNat + 32)).toNat = c.toNat + 32 :=
      char_toNat_ofNat _ hv
    rw [if_neg]
    simp only [ht, Bool.and_eq_true, decide_eq_true_eq, not_and]
    omega
  · rw [if_neg h, if_neg h]

theorem toLowerCase_idem (s : String) :
    toLowerCase (toLowerCase s) = toLowerCase s := by
  unfold toLowerCase
  apply String.ext
  simp only [List.map_map]
  exact List.map_congr_left (fun c _ => lowerChar_idem c)

theorem toLowerCase_toLowerCase_eq (s t : String) (h : toLowerCase s = t) :
    toLowerCase t = t := by
  rw [← h, toLowerCase_idem]

theorem getConversationId_lower_left (a b : String) :
    getConversationId (toLowerCase a) b = getConversationId a b := by
  unfold getConversationId
  rw [toLowerCase_idem]

theorem getConversationId_lower_right (a b : String) :
    getConversationId a (toLowerCase b) = getConversationId a b := by
  unfold getConversationId
  rw [toLowerCase_idem]

theorem charListLe_total (x y : List Char) :
    charListLe x y = true ∨ charListLe y x = true := by
  induction x generalizing y with
  | nil => left; rfl
  | cons a as ih =>
    cases y with
    | nil => right; rfl
    | cons b bs =>
      unfold charListLe
      by_cases hab : a.toNat < b.toNat
      · left
        rw [if_pos hab]
      · by_cases hba : b.toNat < a.toNat
        · right
          rw [if_pos hba]
        · rw [if_neg hab, if_neg hba, if_neg hba, if_neg hab]
          exact ih bs

theorem charListLe_antisymm (x y : List Char)
    (hxy : charListLe x y = true) (hyx : charListLe y x = true) : x = y := by
  induction x generalizing y with
  | nil =>
    cases y with
    | nil => rfl
    | cons b bs => exact absurd hyx (by simp [charListLe])
  | cons a as ih =>
    cases y with
    | nil => exact absurd hxy (by simp [charListLe])
    | cons b bs =>
      unfold charListLe at hxy hyx
      by_cases hab : a.toNat < b.toNat
      · rw [if_neg (by omega), if_pos hab] at hyx
        exact absurd hyx (by simp)
      · by_cases hba : b.toNat < a.toNat
        · rw [if_pos hba] at hyx
          rw [if_neg hab, if_pos hba] at hxy
          exact absurd hxy (by simp)
        · rw [if_neg hab, if_neg hba] at hxy
          rw [if_neg hba, if_neg hab] at hyx
          have hnat : a.toNat = b.toNat := by omega
          have hch : a = b := Char.eq_of_val_eq (UInt32.eq_of_val_eq
            (Fin.ext (by simpa [Char.toNat, UInt32.toNat] using hnat)))
          rw [hch, ih bs hxy hyx]

theorem strLe_total (s t : String) : strLe s t = true ∨ strLe t s = true :=
  charListLe_total s.data t.data

theorem strLe_antisymm (s t : String) (h1 : strLe s t = true)
    (h2 : strLe t s = true) : s = t :=
  String.ext (charListLe_antisymm s.data t.data h1 h2)

theorem getConversationId_comm (a b : String) :
    getConversationId a b = getConversationId b a := by
  unfold getConversationId
  by_cases hab : strLe (toLowerCase a) (toLowerCase b)
  · by_cases hba : strLe (toLowerCase b) (toLowerCase a)
    · have heq : toLowerCase a = toLowerCase b := strLe_antisymm _ _ hab hba
      rw [heq]
    · rw [if_pos hab, if_neg hba]
  · rcases strLe_total (toLowerCase a) (toLowerCase b) with h | hba
    · exact absurd h hab
    · rw [if_neg hab, if_pos hba]

/-- C1: `getConversationId` is symmetric in its two wallets and invariant
under lowercasing either wallet, hence under any case change of their
characters. -/
theorem getConversationId_symm_case_insensitive (a b : String) :
    getConversationId a b = getConversationId b a ∧
    getConversationId a b = getConversationId (toLowerCase a) (toLowerCase b) := by
  refine ⟨getConversationId_comm a b, ?_⟩
  rw [getConversationId_lower_left, getConversationId_lower_right]

theorem findConv_cons (k : String) (v : Conversation) (t : Store) (cid : String) :
    findConv ((k, v) :: t) cid = if k = cid then some v else findConv t cid := by
  unfold findConv
  rw [List.find?_cons]
  by_cases h : k = cid
  · simp [h]
  · have hb : (k == cid) = false := by simp [h]
    simp [hb, h]

theorem findConv_eq_some (store : Store) (cid : String) (c : Conversation)
    (h : findConv store cid = some c) : (cid, c) ∈ store := by
  induction store with
  | nil => simp [findConv] at h
  | cons q t ih =>
    rcases q with ⟨k, v⟩
    rw [findConv_cons] at h
    by_cases hk : k = cid
    · rw [if_pos hk] at h
      rcases h with h
      exact List.mem_cons.2 (Or.inl (by rw [hk, Option.some_inj.1 h]))
    · rw [if_neg hk] at h
      exact List.mem_cons.2 (Or.inr (ih h))

theorem mem_keys_of_any (store : Store) (cid : String)
    (h : store.any (fun p => p.1 == cid) = true) : cid ∈ store.map Prod.fst := by
  rcases List.any_eq_true.1 h with ⟨p, hp, hpk⟩
  exact List.mem_map.2 ⟨p, hp, by simpa using hpk.symm⟩

theorem not_key_of_not_any (store : Store) (cid : String)
    (h : ¬store.any (fun p => p.1 == cid) = true) :
    ∀ p ∈ store, p.1 ≠ cid := by
  intro p hp hk
  exact h (List.any_eq_true.2 ⟨p, hp, by simpa using hk⟩)

theorem findConv_setConv_self (store : Store) (cid : String) (c : Conversation) :
    findConv (setConv store cid c) cid = some c := by
  unfold setConv
  by_cases h : store.any (fun p => p.1 == cid)
  · rw [if_pos h]
    induction store with
    | nil => simp at h
    | cons q t ih =>
      rcases q with ⟨k, v⟩
      by_cases hk : k = cid
      · simp only [List.map_cons, hk, beq_self_eq_true, if_true]
        rw [findConv_cons, if_pos rfl]
      · have hk2 : ¬(k == cid) = true := by simpa using hk
        simp only [List.map_cons, hk2, Bool.false_eq_true, if_false]
        rw [findConv_cons, if_neg hk]
        have ht : t.any (fun p => p.1 == cid) = true := by
          rcases List.any_eq_true.1 h with ⟨p, hp, hpk⟩
          rcases List.mem_cons.1 hp with rfl | hpt
          · exact absurd hpk hk2
          · exact List.any_eq_true.2 ⟨p, hpt, hpk⟩
        exact ih ht
  · rw [if_neg h]
    induction store with
    | nil => rw [List.nil_append, findConv_cons, if_pos rfl]
    | cons q t ih =>
      rcases q with ⟨k, v⟩
      have hk : k ≠ cid := not_key_of_not_any _ _ h (k, v) (List.mem_cons_self _ _)
      rw [List.cons_append, findConv_cons, if_neg hk]
      have ht : ¬t.any (fun p => p.1 == cid) = true := by
        intro hk2
        rcases List.any_eq_true.1 hk2 with ⟨p, hp, hpk⟩
        exact h (List.any_eq_true.2 ⟨p, List.mem_cons_of_mem _ hp, hpk⟩)
      exact ih ht

theorem findConv_setConv_ne (store : Store) (cid cid' : String) (c : Conversation)
    (h : cid' ≠ cid) :
    findConv (setConv store cid c) cid' = findConv store cid' := by
  unfold setConv
  by_cases hany : store.any (fun p => p.1 == cid)
  · rw [if_pos hany]
    clear hany
    induction store with
    | nil => simp
    | cons q t ih =>
      rcases q with ⟨k, v⟩
      by_cases hk : k = cid
      · subst hk
        simp only [List.map_cons, beq_self_eq_true, if_true]
        rw [findConv_cons, findConv_cons, if_neg (fun he => h he.symm),
          if_neg (fun he => h he.symm)]
        exact ih
      · have hk2 : ¬(k == cid) = true := by simpa using hk
        simp only [List.map_cons, hk2, Bool.false_eq_true, if_false]
        rw [findConv_cons, findConv_cons, ih]
  · rw [if_neg hany]
    induction store with
    | nil =>
      rw [List.nil_append, findConv_cons, if_neg (fun he => h he.symm)]
    | cons q t ih =>
      rcases q with ⟨k, v⟩
      have ht : ¬t.any (fun p => p.1 == cid) = true := by
        intro hk2
        rcases List.any_eq_true.1 hk2 with ⟨p, hp, hpk⟩
        exact hany (List.any_eq_true.2 ⟨p, List.mem_cons_of_mem _ hp, hpk⟩)
      rw [List.cons_append, findConv_cons, findConv_cons]
      by_cases hk : k = cid'
      · rw [if_pos hk, if_pos hk]
      · rw [if_neg hk, if_neg hk]
        exact ih ht

theorem setConv_of_found (store : Store) (cid : String) (c : Conversation)
    (h : store.any (fun p => p.1 == cid) = true) :
    setConv store cid c
      = store.map (fun p => if p.1 == cid then (cid, c) else p) := by
  unfold setConv
  rw [if_pos h]

theorem keys_setConv_found (store : Store) (cid : String) (c : Conversation)
    (h : store.any (fun p => p.1 == cid) = true) :
    (setConv store cid c).map Prod.fst = store.map Prod.fst := by
  unfold setConv
  rw [if_pos h, List.map_map]
  refine List.map_congr_left (fun p _ => ?_)
  by_cases hk : p.1 = cid
  · simp [hk]
  · simp [hk]

theorem keys_setConv_not_found (store : Store) (cid : String) (c : Conversation)
    (h : ¬store.any (fun p => p.1 == cid) = true) :
    (setConv store cid c).map Prod.fst = store.map Prod.fst ++ [cid] := by
  unfold setConv
  rw [if_neg h, List.map_append]
  rfl

theorem mem_setConv (store : Store) (cid : String) (c : Conversation)
    (pc : String × Conversation) (h : pc ∈ setConv store cid c) :
    pc = (cid, c) ∨ pc ∈ store := by
  unfold setConv at h
  by_cases hany : store.any (fun p => p.1 == cid)
  · rw [if_pos hany] at h
    rcases List.mem_map.1 h with ⟨p, hp, hpc⟩
    by_cases hk : p.1 = cid
    · left
      rw [← hpc]
      simp [hk]
    · right
      rw [← hpc]
      simpa [hk] using hp
  · rw [if_neg hany] at h
    rcases List.mem_append.1 h with hp | hp
    · exact Or.inr hp
    · exact Or.inl (by simpa using hp)

theorem map_eq_self_of_no_key (store : Store) (cid : String) (c : Conversation)
    (h : ∀ p ∈ store, p.1 ≠ cid) :
    store.map (fun p => if p.1 == cid then (cid, c) else p) = store := by
  have := List.map_congr_left (l := store)
    (f := fun p => if p.1 == cid then (cid, c) else p) (g := id)
    (fun p hp => by simp [h p hp])
  simpa using this

theorem setConv_setConv (store : Store) (cid : String) (c c' : Conversation) :
    setConv (setConv store cid c) cid c' = setConv store cid c' := by
  have h1 : (setConv store cid c).any (fun p => p.1 == cid) = true := by
    have := findConv_setConv_self store cid c
    rcases findConv_eq_some _ _ _ this with hmem
    exact List.any_eq_true.2 ⟨(cid, c), hmem, by simp⟩
  by_cases hany : store.any (fun p => p.1 == cid)
  · rw [setConv_of_found _ _ c' h1, setConv_of_found _ _ c hany,
      setConv_of_found _ _ c' hany, List.map_map]
    refine List.map_congr_left (fun p _ => ?_)
    by_cases hk : p.1 = cid
    · simp [hk]
    · simp [hk]
  · have hs : setConv store cid c = store ++ [(cid, c)] := by
      unfold setConv
      rw [if_neg hany]
    have hs' : setConv store cid c' = store ++ [(cid, c')] := by
      unfold setConv
      rw [if_neg hany]
    rw [setConv_of_found _ _ c' h1, hs, List.map_append]
    have h2 : store.map (fun p => if p.1 == cid then (cid, c') else p) = store :=
      map_eq_self_of_no_key store cid c' (not_key_of_not_any store cid hany)
    rw [h2, hs']
    simp

theorem truncate3_eq_takeLast (l : List Message) : truncate3 l = takeLast 3 l := by
  unfold truncate3 takeLast
  by_cases h : l.length > 3
  · rw [if_pos h]
  · rw [if_neg h]
    have : l.length - 3 = 0 := by omega
    rw [this, List.drop_zero]

theorem takeLast_append_right {α : Type} (n : Nat) (u v : List α)
    (h : n ≤ v.length) : takeLast n (u ++ v) = takeLast n v := by
  unfold takeLast
  rw [List.drop_append_eq_append_drop]
  have h1 : (u ++ v).length - n - u.length = v.length - n := by
    simp only [List.length_append]
    omega
  have h2 : u.drop ((u ++ v).length - n) = [] := by
    apply List.drop_eq_nil_of_le
    simp only [List.length_append]
    omega
  rw [h1, h2, List.nil_append]

theorem takeLast_length_le {α : Type} (n : Nat) (l : List α) :
    (takeLast n l).length ≤ n := by
  unfold takeLast
  rw [List.length_drop]
  omega

theorem takeLast_takeLast_append {α : Type} (n : Nat) (x y : List α) :
    takeLast n (takeLast n x ++ y) = takeLast n (x ++ y) := by
  by_cases hn : n ≤ x.length
  · have hx : (takeLast n x).length = n := by
      unfold takeLast
      rw [List.length_drop]
      omega
    unfold takeLast
    rw [List.drop_append_eq_append_drop, List.drop_append_eq_append_drop]
    rw [List.drop_drop]
    have hlen1 : (x.drop (x.length - n) ++ y).length = n + y.length := by
      simp only [List.length_append, List.length_drop]
      omega
    have hlen2 : (x ++ y).length = x.length + y.length := by
      simp [List.length_append]
    rw [hlen1, hlen2]
    have hxlen : (x.drop (x.length - n)).length = n := by
      rw [List.length_drop]
      omega
    rw [hxlen]
    have ex : x.length - n + (n + y.length - n) = x.length + y.length - n := by omega
    have ey : n + y.length - n - n = x.length + y.length - n - x.length := by omega
    rw [ex, ey]
  · have hx : takeLast n x = x := by
      unfold takeLast
      have : x.length - n = 0 := by omega
      rw [this, List.drop_zero]
    rw [hx]

theorem findConv_none_no_key (store : Store) (cid : String)
    (h : findConv store cid = none) : ∀ p ∈ store, p.1 ≠ cid := by
  induction store with
  | nil => intro p hp; simp at hp
  | cons q t ih =>
    rcases q with ⟨k, v⟩
    rw [findConv_cons] at h
    intro p hp
    by_cases hk : k = cid
    · rw [if_pos hk] at h
      exact absurd h (by simp)
    · rw [if_neg hk] at h
      rcases List.mem_cons.1 hp with rfl | hpt
      · exact hk
      · exact ih h p hpt

theorem sendMessage_valid_absent (store : Store) (a : SendArgs)
    (h : ValidSend a)
    (hf : findConv store (getConversationId a.«from» a.«to») = none) :
    sendMessage store a = Except.ok
      (setConv store (getConversationId a.«from» a.«to»)
        { participants := [toLowerCase a.«from», toLowerCase a.«to»],
          messages := truncate3 ([] ++ [newMessageOf a]),
          createdAt := a.now, lastMessageAt := a.now }, newMessageOf a) := by
  unfold sendMessage
  rw [if_neg h]
  simp only [hf]

theorem sendMessage_valid_present (store : Store) (a : SendArgs)
    (c : Conversation) (h : ValidSend a)
    (hf : findConv store (getConversationId a.«from» a.«to») = some c) :
    sendMessage store a = Except.ok
      (setConv store (getConversationId a.«from» a.«to»)
        { c with messages := truncate3 (c.messages ++ [newMessageOf a]),
                 lastMessageAt := a.now }, newMessageOf a) := by
  unfold sendMessage
  rw [if_neg h]
  simp only [hf]

theorem doSend_valid_absent (store : Store) (a : SendArgs)
    (h : ValidSend a)
    (hf : findConv store (getConversationId a.«from» a.«to») = none) :
    doSend store a = setConv store (getConversationId a.«from» a.«to»)
      { participants := [toLowerCase a.«from», toLowerCase a.«to»],
        messages := truncate3 ([] ++ [newMessageOf a]),
        createdAt := a.now, lastMessageAt := a.now } := by
  unfold doSend
  rw [sendMessage_valid_absent store a h hf]

theorem doSend_valid_present (store : Store) (a : SendArgs)
    (c : Conversation) (h : ValidSend a)
    (hf : findConv store (getConversationId a.«from» a.«to») = some c) :
    doSend store a = setConv store (getConversationId a.«from» a.«to»)
      { c with messages := truncate3 (c.messages ++ [newMessageOf a]),
               lastMessageAt := a.now } := by
  unfold doSend
  rw [sendMessage_valid_present store a c h hf]

theorem doSend_invalid (store : Store) (a : SendArgs)
    (h : a.«from» = "" ∨ a.«to» = "" ∨ a.message = "") :
    doSend store a = store := by
  unfold doSend sendMessage
  rw [if_pos h]

theorem convMessages_setConv_self (store : Store) (cid : String)
    (c : Conversation) : convMessages (setConv store cid c) cid = c.messages := by
  unfold convMessages
  rw [findConv_setConv_self]

theorem convMessages_doSend (store : Store) (a : SendArgs) (h : ValidSend a) :
    convMessages (doSend store a) (getConversationId a.«from» a.«to») =
      truncate3 (convMessages store (getConversationId a.«from» a.«to»)
        ++ [newMessageOf a]) := by
  cases hf : findConv store (getConversationId a.«from» a.«to») with
  | none =>
    rw [doSend_valid_absent store a h hf, convMessages_setConv_self]
    unfold convMessages
    rw [hf]
  | some c =>
    rw [doSend_valid_present store a c h hf, convMessages_setConv_self]
    unfold convMessages
    rw [hf]

theorem truncate3_length_le (l : List Message) : (truncate3 l).length ≤ 3 := by
  rw [truncate3_eq_takeLast]
  exact takeLast_length_le 3 l

theorem mem_truncate3 (m : Message) (l : List Message)
    (h : m ∈ truncate3 l) : m ∈ l := by
  rw [truncate3_eq_takeLast] at h
  exact List.mem_of_mem_drop h

theorem convMessages_doSends (store : Store) (l : List SendArgs) (cid : String)
    (h0 : (convMessages store cid).length ≤ 3)
    (hl : ∀ a ∈ l, ValidSend a ∧ getConversationId a.«from» a.«to» = cid) :
    convMessages (doSends store l) cid =
      takeLast 3 (convMessages store cid ++ l.map newMessageOf) := by
  induction l generalizing store with
  | nil =>
    unfold doSends
    simp only [List.foldl_nil, List.map_nil, List.append_nil]
    unfold takeLast
    have : (convMessages store cid).length - 3 = 0 := by omega
    rw [this, List.drop_zero]
  | cons a t ih =>
    have ha := hl a (List.mem_cons_self a t)
    have hcm : convMessages (doSend store a) cid =
        truncate3 (convMessages store cid ++ [newMessageOf a]) := by
      rw [← ha.2]
      exact convMessages_doSend store a ha.1
    have hstep : doSends store (a :: t) = doSends (doSend store a) t := by
      unfold doSends
      rw [List.foldl_cons]
    rw [hstep, ih (doSend store a)
      (by rw [hcm]; exact truncate3_length_le _)
      (fun b hb => hl b (List.mem_cons_of_mem a hb))]
    rw [hcm, truncate3_eq_takeLast, takeLast_takeLast_append]
    rw [List.append_assoc]
    rfl

theorem markRead_to (wallet1 : String) (m : Message) :
    (markRead wallet1 m).«to» = m.«to» := by
  unfold markRead
  by_cases h : toLowerCase m.«to» = toLowerCase wallet1
  · rw [if_pos h]
  · rw [if_neg h]

theorem markRead_from (wallet1 : String) (m : Message) :
    (markRead wallet1 m).«from» = m.«from» := by
  unfold markRead
  by_cases h : toLowerCase m.«to» = toLowerCase wallet1
  · rw [if_pos h]
  · rw [if_neg h]

theorem newMessageOf_LC (a : SendArgs) :
    LC (newMessageOf a).«from» ∧ LC (newMessageOf a).«to» :=
  ⟨toLowerCase_idem a.«from», toLowerCase_idem a.«to»⟩

theorem getConversation_store_absent (s : Store) (w1 w2 : String)
    (hf : findConv s (getConversationId w1 w2) = none) :
    (getConversation s w1 w2).2.1 = s := by
  unfold getConversation
  simp only [hf]

theorem getConversation_store_present (s : Store) (w1 w2 : String)
    (conv : Conversation)
    (hf : findConv s (getConversationId w1 w2) = some conv) :
    (getConversation s w1 w2).2.1 = setConv s (getConversationId w1 w2)
      { conv with messages := conv.messages.map (markRead w1) } := by
  unfold getConversation
  simp only [hf]

theorem storeInv_applyOp (s : Store) (op : Op) (h : StoreInv s) :
    StoreInv (applyOp s op) := by
  rcases h with ⟨hkeys, hgood⟩
  cases op with
  | unread w => exact ⟨hkeys, hgood⟩
  | listPeers gd w => exact ⟨hkeys, hgood⟩
  | getConv w1 w2 =>
    show StoreInv ((getConversation s w1 w2).2.1)
    cases hf : findConv s (getConversationId w1 w2) with
    | none =>
      rw [getConversation_store_absent s w1 w2 hf]
      exact ⟨hkeys, hgood⟩
    | some conv =>
      rw [getConversation_store_present s w1 w2 conv hf]
      have hmem := findConv_eq_some _ _ _ hf
      have hany : s.any (fun p => p.1 == getConversationId w1 w2) = true :=
        List.any_eq_true.2 ⟨_, hmem, by simp⟩
      constructor
      · rw [keys_setConv_found _ _ _ hany]
        exact hkeys
      · intro pc hpc
        rcases mem_setConv _ _ _ _ hpc with rfl | hold
        · rcases hgood _ hmem with ⟨hlen, hmsg, hpart⟩
          refine ⟨?_, ?_, ?_⟩
          · simpa [List.length_map] using hlen
          · intro m hm
            rcases List.mem_map.1 hm with ⟨m0, hm0, rfl⟩
            rcases hmsg m0 hm0 with ⟨h1, h2⟩
            rw [markRead_from, markRead_to]
            exact ⟨h1, h2⟩
          · exact hpart
        · exact hgood _ hold
  | send a =>
    show StoreInv (doSend s a)
    by_cases hv : a.«from» = "" ∨ a.«to» = "" ∨ a.message = ""
    · rw [doSend_invalid s a hv]
      exact ⟨hkeys, hgood⟩
    · cases hf : findConv s (getConversationId a.«from» a.«to») with
      | none =>
        rw [doSend_valid_absent s a hv hf]
        have hnokey := findConv_none_no_key s _ hf
        have hany : ¬s.any (fun p => p.1 == getConversationId a.«from» a.«to») = true := by
          intro hk
          rcases List.any_eq_true.1 hk with ⟨p, hp, hpk⟩
          exact hnokey p hp (by simpa using hpk)
        constructor
        · rw [keys_setConv_not_found _ _ _ hany]
          rw [List.nodup_append]
          refine ⟨hkeys, List.nodup_singleton _, ?_⟩
          intro x hx hx2
          rcases List.mem_map.1 hx with ⟨p, hp, rfl⟩
          exact hnokey p hp (List.mem_singleton.1 hx2)
        · intro pc hpc
          rcases mem_setConv _ _ _ _ hpc with rfl | hold
          · dsimp only
            refine ⟨?_, ?_, ?_⟩
            · exact truncate3_length_le ([] ++ [newMessageOf a])
            · intro m hm
              rcases mem_truncate3 m ([] ++ [newMessageOf a]) hm with hm2
              rcases List.mem_append.1 hm2 with hm3 | hm3
              · simp at hm3
              · rw [List.mem_singleton.1 hm3]
                exact newMessageOf_LC a
            · intro p hp
              rcases List.mem_cons.1 hp with rfl | hp2
              · exact toLowerCase_idem _
              · rcases List.mem_cons.1 hp2 with rfl | hp3
                · exact toLowerCase_idem _
                · simp at hp3
          · exact hgood _ hold
      | some c =>
        rw [doSend_valid_present s a c hv hf]
        have hmem := findConv_eq_some _ _ _ hf
        have hany : s.any (fun p => p.1 == getConversationId a.«from» a.«to») = true :=
          List.any_eq_true.2 ⟨_, hmem, by simp⟩
        constructor
        · rw [keys_setConv_found _ _ _ hany]
          exact hkeys
        · intro pc hpc
          rcases mem_setConv _ _ _ _ hpc with rfl | hold
          · rcases hgood _ hmem with ⟨hlen, hmsg, hpart⟩
            dsimp only
            refine ⟨?_, ?_, ?_⟩
            · exact truncate3_length_le (c.messages ++ [newMessageOf a])
            · intro m hm
              rcases mem_truncate3 m (c.messages ++ [newMessageOf a]) hm with hm2
              rcases List.mem_append.1 hm2 with hm3 | hm3
              · exact hmsg m hm3
              · rw [List.mem_singleton.1 hm3]
                exact newMessageOf_LC a
            · exact hpart
          · exact hgood _ hold

theorem reachable_storeInv (s : Store) (h : Reachable s) : StoreInv s := by
  induction h with
  | init => exact ⟨List.nodup_nil, fun pc hpc => absurd hpc (List.not_mem_nil pc)⟩
  | step op _ ih => exact storeInv_applyOp _ op ih

theorem takeLast_length_eq {α : Type} (n : Nat) (l : List α) (h : n ≤ l.length) :
    (takeLast n l).length = n := by
  unfold takeLast
  rw [List.length_drop]
  omega

theorem takeLast_map {α β : Type} (n : Nat) (l : List α) (f : α → β) :
    takeLast n (l.map f) = (takeLast n l).map f := by
  unfold takeLast
  rw [List.length_map, List.map_drop]

/-- C2: in every reachable store every conversation holds at most three
messages, and a run of more than three valid sends into one conversation
leaves exactly the three most recently appended messages, in append order,
the oldest silently dropped. -/
theorem conversation_bounded_keeps_last_three (s : Store) (h : Reachable s)
    (cid : String) (l : List SendArgs) (hlen : 3 < l.length)
    (hl : ∀ a ∈ l, ValidSend a ∧ getConversationId a.«from» a.«to» = cid) :
    (∀ pc ∈ s, pc.2.messages.length ≤ 3) ∧
    convMessages (doSends s l) cid = (takeLast 3 l).map newMessageOf ∧
    (convMessages (doSends s l) cid).length = 3 := by
  have hinv := reachable_storeInv s h
  have hbound : ∀ pc ∈ s, pc.2.messages.length ≤ 3 :=
    fun pc hpc => (hinv.2 pc hpc).1
  have h0 : (convMessages s cid).length ≤ 3 := by
    unfold convMessages
    cases hf : findConv s cid with
    | none => simp
    | some c => exact hbound _ (findConv_eq_some _ _ _ hf)
  have hmain := convMessages_doSends s l cid h0 hl
  have hright : takeLast 3 (convMessages s cid ++ l.map newMessageOf) =
      takeLast 3 (l.map newMessageOf) :=
    takeLast_append_right 3 _ _ (by rw [List.length_map]; omega)
  refine ⟨hbound, ?_, ?_⟩
  · rw [hmain, hright, takeLast_map]
  · rw [hmain, hright]
    exact takeLast_length_eq 3 _ (by rw [List.length_map]; omega)

/-- Witness for C2 at a concrete run of four sends from the empty store. -/
theorem conversation_bounded_keeps_last_three_witness :
    convMessages (doSends [] [wSend1, wSend2, wSend3, wSend4]) "a_b" =
      (takeLast 3 [wSend1, wSend2, wSend3, wSend4]).map newMessageOf ∧
    (convMessages (doSends [] [wSend1, wSend2, wSend3, wSend4]) "a_b").length = 3 :=
  (conversation_bounded_keeps_last_three [] Reachable.init "a_b"
    [wSend1, wSend2, wSend3, wSend4] (by decide) (by decide)).2

/-- C6: a send request with an empty (or absent, modelled as empty) `from`,
`to` or `message` is answered with the 400 validation error and leaves the
store untouched. -/
theorem sendMessage_missing_field_rejected (store : Store) (a : SendArgs)
    (h : a.«from» = "" ∨ a.«to» = "" ∨ a.message = "") :
    sendMessage store a = Except.error "From, to, and message are required" ∧
    doSend store a = store := by
  constructor
  · unfold sendMessage
    rw [if_pos h]
  · exact doSend_invalid store a h

/-- Witness for C6: the empty-sender request against the empty store. -/
theorem sendMessage_missing_field_rejected_witness :
    (wSendEmpty.«from» = "" ∨ wSendEmpty.«to» = "" ∨ wSendEmpty.message = "") ∧
    sendMessage [] wSendEmpty =
      Except.error "From, to, and message are required" ∧
    doSend [] wSendEmpty = [] :=
  ⟨Or.inl rfl, sendMessage_missing_field_rejected [] wSendEmpty (Or.inl rfl)⟩

theorem getConversation_absent_eq (store : Store) (w1 w2 : String)
    (hf : findConv store (getConversationId w1 w2) = none) :
    getConversation store w1 w2 =
      ({ conversationId := getConversationId w1 w2, messages := [],
         participants := [toLowerCase w1, toLowerCase w2] }, store, false) := by
  unfold getConversation
  simp only [hf]

theorem getConversation_present_eq (store : Store) (w1 w2 : String)
    (conv : Conversation)
    (hf : findConv store (getConversationId w1 w2) = some conv) :
    getConversation store w1 w2 =
      ({ conversationId := getConversationId w1 w2,
         messages := conv.messages.map (markRead w1),
         participants := conv.participants },
       setConv store (getConversationId w1 w2)
         { conv with messages := conv.messages.map (markRead w1) }, true) := by
  unfold getConversation
  simp only [hf]

/-- C7: fetching a conversation that does not exist answers the empty thread
with the two lowercased wallets as participants, does not change the store
and does not persist. -/
theorem getConversation_absent_empty_no_write (store : Store) (w1 w2 : String)
    (hf : findConv store (getConversationId w1 w2) = none) :
    getConversation store w1 w2 =
      ({ conversationId := getConversationId w1 w2, messages := [],
         participants := [toLowerCase w1, toLowerCase w2] }, store, false) :=
  getConversation_absent_eq store w1 w2 hf

/-- Witness for C7: an absent pair in a nonempty store. -/
theorem getConversation_absent_empty_no_write_witness :
    findConv (doSend [] wSend1) (getConversationId "C" "d") = none ∧
    getConversation (doSend [] wSend1) "C" "d" =
      ({ conversationId := getConversationId "C" "d", messages := [],
         participants := [toLowerCase "C", toLowerCase "d"] },
       doSend [] wSend1, false) :=
  ⟨by decide,
   getConversation_absent_empty_no_write (doSend [] wSend1) "C" "d" (by decide)⟩

theorem markRead_markRead (w : String) (m : Message) :
    markRead w (markRead w m) = markRead w m := by
  unfold markRead
  by_cases h : toLowerCase m.«to» = toLowerCase w
  · rw [if_pos h]
    rw [if_pos h]
  · rw [if_neg h, if_neg h]

theorem markRead_map_idem (w : String) (l : List Message) :
    (l.map (markRead w)).map (markRead w) = l.map (markRead w) := by
  rw [List.map_map]
  exact List.map_congr_left (fun m _ => markRead_markRead w m)

/-- C5 (amended): the conversation fetch persists exactly when the
conversation exists (also when no read flag changed), and it is idempotent at
the state level: an immediate second fetch returns the identical response and
leaves the store as the first call left it. -/
theorem getConversation_write_iff_and_idempotent (store : Store)
    (w1 w2 : String) :
    ((getConversation store w1 w2).2.2 = true ↔
      (findConv store (getConversationId w1 w2)).isSome = true) ∧
    getConversation ((getConversation store w1 w2).2.1) w1 w2 =
      getConversation store w1 w2 := by
  cases hf : findConv store (getConversationId w1 w2) with
  | none =>
    rw [getConversation_absent_eq store w1 w2 hf]
    constructor
    · simp
    · rw [getConversation_absent_eq store w1 w2 hf]
  | some conv =>
    rw [getConversation_present_eq store w1 w2 conv hf]
    constructor
    · simp
    · have hf2 : findConv
          (setConv store (getConversationId w1 w2)
            { conv with messages := conv.messages.map (markRead w1) })
          (getConversationId w1 w2) =
          some { conv with messages := conv.messages.map (markRead w1) } :=
        findConv_setConv_self _ _ _
      rw [getConversation_present_eq _ w1 w2 _ hf2]
      dsimp only
      rw [markRead_map_idem, setConv_setConv]

/-- Counterexample to C5 as stated: after one send from `a` to `b`, the
fetch by the sender `a` changes no read flag (the store is left identical)
yet the handler still persists (`writeMessages` is called). -/
theorem getConversation_redundant_write_counterexample :
    Reachable (doSend [] wSend1) ∧
    (getConversation (doSend [] wSend1) "a" "b").2.1 = doSend [] wSend1 ∧
    (getConversation (doSend [] wSend1) "a" "b").2.2 = true :=
  ⟨Reachable.step (Op.send wSend1) Reachable.init, by decide, by decide⟩

theorem msgEvolves_refl (m : Message) : MsgEvolves m m :=
  ⟨rfl, rfl, rfl, rfl, rfl, rfl, fun h => h⟩

theorem msgEvolves_markRead (w : String) (m : Message) :
    MsgEvolves m (markRead w m) := by
  unfold markRead
  by_cases h : toLowerCase m.«to» = toLowerCase w
  · rw [if_pos h]
    exact ⟨rfl, rfl, rfl, rfl, rfl, rfl, fun _ => rfl⟩
  · rw [if_neg h]
    exact msgEvolves_refl m

/-- C4: across every request, each message found in a conversation after the
request either evolves from a message of the same conversation before it
(same id, endpoints, body, kind and timestamp; read only ever goes to true,
never back to false), or is precisely the message freshly appended by that
very request (a send into this conversation), which starts unread. -/
theorem message_fields_immutable (s : Store) (op : Op) (cid : String)
    (m2 : Message) (hm : m2 ∈ convMessages (applyOp s op) cid) :
    (∃ m ∈ convMessages s cid, MsgEvolves m m2) ∨
    (∃ a, op = Op.send a ∧ cid = getConversationId a.«from» a.«to» ∧
      m2 = newMessageOf a ∧ m2.read = false) := by
  cases op with
  | unread w => exact Or.inl ⟨m2, hm, msgEvolves_refl m2⟩
  | listPeers gd w => exact Or.inl ⟨m2, hm, msgEvolves_refl m2⟩
  | getConv w1 w2 =>
    simp only [applyOp] at hm
    cases hf : findConv s (getConversationId w1 w2) with
    | none =>
      rw [getConversation_store_absent s w1 w2 hf] at hm
      exact Or.inl ⟨m2, hm, msgEvolves_refl m2⟩
    | some conv =>
      rw [getConversation_store_present s w1 w2 conv hf] at hm
      by_cases hcid : cid = getConversationId w1 w2
      · subst hcid
        rw [convMessages_setConv_self] at hm
        rcases List.mem_map.1 hm with ⟨m, hm0, rfl⟩
        refine Or.inl ⟨m, ?_, msgEvolves_markRead w1 m⟩
        unfold convMessages
        rw [hf]
        exact hm0
      · unfold convMessages at hm
        rw [findConv_setConv_ne s _ cid _ hcid] at hm
        exact Or.inl ⟨m2, hm, msgEvolves_refl m2⟩
  | send a =>
    simp only [applyOp] at hm
    by_cases hv : a.«from» = "" ∨ a.«to» = "" ∨ a.message = ""
    · rw [doSend_invalid s a hv] at hm
      exact Or.inl ⟨m2, hm, msgEvolves_refl m2⟩
    · by_cases hcid : cid = getConversationId a.«from» a.«to»
      · subst hcid
        rw [convMessages_doSend s a hv] at hm
        rcases List.mem_append.1 (mem_truncate3 _ _ hm) with hm3 | hm3
        · exact Or.inl ⟨m2, hm3, msgEvolves_refl m2⟩
        · have hm4 := List.mem_singleton.1 hm3
          exact Or.inr ⟨a, rfl, rfl, hm4, by rw [hm4]; rfl⟩
      · cases hf : findConv s (getConversationId a.«from» a.«to») with
        | none =>
          rw [doSend_valid_absent s a hv hf] at hm
          unfold convMessages at hm
          rw [findConv_setConv_ne s _ cid _ hcid] at hm
          exact Or.inl ⟨m2, hm, msgEvolves_refl m2⟩
        | some c =>
          rw [doSend_valid_present s a c hv hf] at hm
          unfold convMessages at hm
          rw [findConv_setConv_ne s _ cid _ hcid] at hm
          exact Or.inl ⟨m2, hm, msgEvolves_refl m2⟩

/-- Witness for C4: the message marked read by the recipient fetch evolves
from the stored message. -/
theorem message_fields_immutable_witness :
    ({ id := "m1", «from» := "a", «to» := "b", message := "hi",
       messageType := "text", timestamp := "t1", read := true } : Message) ∈
      convMessages (applyOp (doSend [] wSend1) (Op.getConv "b" "a")) "a_b" ∧
    ((∃ m ∈ convMessages (doSend [] wSend1) "a_b", MsgEvolves m
      { id := "m1", «from» := "a", «to» := "b", message := "hi",
        messageType := "text", timestamp := "t1", read := true }) ∨
      (∃ a, Op.getConv "b" "a" = Op.send a ∧
        "a_b" = getConversationId a.«from» a.«to» ∧
        ({ id := "m1", «from» := "a", «to» := "b", message := "hi",
           messageType := "text", timestamp := "t1", read := true } : Message)
          = newMessageOf a ∧
        ({ id := "m1", «from» := "a", «to» := "b", message := "hi",
           messageType := "text", timestamp := "t1", read := true } : Message).read
          = false)) :=
  ⟨by decide,
   message_fields_immutable (doSend [] wSend1) (Op.getConv "b" "a") "a_b"
     { id := "m1", «from» := "a", «to» := "b", message := "hi",
       messageType := "text", timestamp := "t1", read := true } (by decide)⟩

theorem getUnreadCount_sum_aux (uw : String) (l : Store) (init : Nat) :
    l.foldl (fun totalUnread pc =>
      if uw ∈ pc.2.participants then
        totalUnread +
          (pc.2.messages.filter (fun m => m.«to» == uw && !m.read)).length
      else totalUnread) init
      = init + (l.map (unreadEntry uw)).sum := by
  induction l generalizing init with
  | nil => simp
  | cons p t ih =>
    rw [List.foldl_cons, List.map_cons, List.sum_cons, ih]
    have hhead : unreadEntry uw p =
        if uw ∈ p.2.participants then
          (p.2.messages.filter (fun m => m.«to» == uw && !m.read)).length
        else 0 := rfl
    rw [hhead]
    by_cases hp : uw ∈ p.2.participants
    · rw [if_pos hp, if_pos hp]
      omega
    · rw [if_neg hp, if_neg hp]
      omega

theorem getUnreadCount_eq_sum (store : Store) (w : String) :
    getUnreadCount store w =
      (store.map (unreadEntry (toLowerCase w))).sum := by
  unfold getUnreadCount
  rw [getUnreadCount_sum_aux]
  omega

theorem sum_map_set (f : String × Conversation → Nat) (l : Store)
    (cid : String) (conv conv' : Conversation) :
    (l.map Prod.fst).Nodup → findConv l cid = some conv →
    ((l.map (fun p => if p.1 == cid then (cid, conv') else p)).map f).sum
        + f (cid, conv)
      = (l.map f).sum + f (cid, conv') := by
  induction l with
  | nil =>
    intro _ hf
    simp [findConv] at hf
  | cons q t ih =>
    intro hnd hf
    rcases q with ⟨k, v⟩
    rw [findConv_cons] at hf
    rw [List.map_cons] at hnd
    rcases List.nodup_cons.1 hnd with ⟨hknot, hndt⟩
    by_cases hk : k = cid
    · rw [if_pos hk] at hf
      rcases Option.some_inj.1 hf with rfl
      subst hk
      have htail : t.map (fun p => if p.1 == k then (k, conv') else p) = t :=
        map_eq_self_of_no_key t k conv'
          (fun p hp hpk => hknot (by
            rw [← hpk]
            exact List.mem_map.2 ⟨p, hp, rfl⟩))
      simp only [List.map_cons, beq_self_eq_true, if_true, htail, List.sum_cons]
      omega
    · rw [if_neg hk] at hf
      have hb : ((k, v).1 == cid) = false := by simp [hk]
      simp only [List.map_cons, hb, Bool.false_eq_true, if_false, List.sum_cons]
      have := ih hndt hf
      omega

theorem filter_marked_strict_nil (w1 : String) (msgs : List Message)
    (hLC : ∀ m ∈ msgs, LC m.«to») :
    (msgs.map (markRead w1)).filter
      (fun m => m.«to» == toLowerCase w1 && !m.read) = [] := by
  rw [List.filter_eq_nil_iff]
  intro m2 hm2
  rcases List.mem_map.1 hm2 with ⟨m, hm, rfl⟩
  unfold markRead
  by_cases h : toLowerCase m.«to» = toLowerCase w1
  · rw [if_pos h]
    simp
  · rw [if_neg h]
    simp only [Bool.and_eq_true, beq_iff_eq, Bool.not_eq_true']
    rintro ⟨h1, _⟩
    exact h (by rw [hLC m hm, h1])

theorem filter_strict_eq_ci (w : String) (msgs : List Message)
    (hLC : ∀ m ∈ msgs, LC m.«to») :
    msgs.filter (fun m => m.«to» == toLowerCase w && !m.read) =
      msgs.filter (fun m => toLowerCase m.«to» == toLowerCase w && !m.read) := by
  refine List.filter_congr (fun m hm => ?_)
  rw [hLC m hm]

theorem participants_map_lower (ps : List String) (h : ∀ p ∈ ps, LC p) :
    ps.map toLowerCase = ps := by
  have h2 : ps.map toLowerCase = ps.map id :=
    List.map_congr_left (fun p hp => h p hp)
  rw [h2, List.map_id]

theorem unreadCount_eq_spec (s : Store) (hinv : StoreInv s) (w : String) :
    getUnreadCount s w = unreadSpec s w := by
  rw [getUnreadCount_eq_sum]
  unfold unreadSpec
  refine congrArg List.sum (List.map_congr_left (fun pc hpc => ?_))
  rcases hinv.2 pc hpc with ⟨_, hmsg, hpart⟩
  unfold unreadEntry
  rw [participants_map_lower pc.2.participants hpart]
  by_cases hp : toLowerCase w ∈ pc.2.participants
  · rw [if_pos hp, if_pos hp]
    rw [filter_strict_eq_ci w pc.2.messages (fun m hm => (hmsg m hm).2)]
  · rw [if_neg hp, if_neg hp]

/-- C3 (amended): the unread endpoint computes the case-insensitive
specification sum on every reachable store, and a conversation fetch by `w`
drops the unread total of `w` by exactly the previously-unread messages
addressed to `w` in the fetched conversation, provided the canonicalized `w`
is listed among that conversation's stored participants. -/
theorem unread_total_and_read_drop (s : Store) (h : Reachable s)
    (w other : String) (conv : Conversation)
    (hfind : findConv s (getConversationId w other) = some conv)
    (hpart : toLowerCase w ∈ conv.participants) :
    getUnreadCount s w = unreadSpec s w ∧
    getUnreadCount s w =
      getUnreadCount ((getConversation s w other).2.1) w +
        countForPair s (getConversationId w other) w := by
  have hinv := reachable_storeInv s h
  refine ⟨unreadCount_eq_spec s hinv w, ?_⟩
  have hgood := hinv.2 _ (findConv_eq_some _ _ _ hfind)
  have hLCmsg : ∀ m ∈ conv.messages, LC m.«to» :=
    fun m hm => (hgood.2.1 m hm).2
  rw [getConversation_store_present s w other conv hfind]
  have hany : s.any (fun p => p.1 == getConversationId w other) = true :=
    List.any_eq_true.2 ⟨_, findConv_eq_some _ _ _ hfind, by simp⟩
  rw [getUnreadCount_eq_sum, getUnreadCount_eq_sum, setConv_of_found _ _ _ hany]
  have hsum := sum_map_set (unreadEntry (toLowerCase w)) s
    (getConversationId w other) conv
    { conv with messages := conv.messages.map (markRead w) } hinv.1 hfind
  have hold : unreadEntry (toLowerCase w) (getConversationId w other, conv) =
      countForPair s (getConversationId w other) w := by
    unfold unreadEntry countForPair convMessages
    rw [hfind]
    dsimp only
    rw [if_pos hpart, filter_strict_eq_ci w conv.messages hLCmsg]
  have hnew : unreadEntry (toLowerCase w)
      (getConversationId w other,
       { conv with messages := conv.messages.map (markRead w) }) = 0 := by
    unfold unreadEntry
    dsimp only
    rw [if_pos hpart, filter_marked_strict_nil w conv.messages hLCmsg]
    rfl
  rw [hold, hnew] at hsum
  omega

/-- Witness for C3: after one send from `a` to `b`, the recipient's fetch
drops the total from one to zero. -/
theorem unread_total_and_read_drop_witness :
    findConv (doSend [] wSend1) (getConversationId "b" "a") = some convW1 ∧
    toLowerCase "b" ∈ convW1.participants ∧
    (getUnreadCount (doSend [] wSend1) "b" = unreadSpec (doSend [] wSend1) "b" ∧
     getUnreadCount (doSend [] wSend1) "b" =
       getUnreadCount ((getConversation (doSend [] wSend1) "b" "a").2.1) "b" +
         countForPair (doSend [] wSend1) (getConversationId "b" "a") "b") :=
  ⟨by decide, by decide,
   unread_total_and_read_drop (doSend [] wSend1)
     (Reachable.step (Op.send wSend1) Reachable.init) "b" "a" convW1
     (by decide) (by decide)⟩

/-- Counterexample to C3 as stated: underscores make `getConversationId`
collide, the conversation keyed `a_b_c` keeps the participants of its first
creator (`a_b`, `c`), so the message addressed to `b_c` is never counted by
the unread endpoint, and the fetch by `b_c` drops the total by zero rather
than by the one previously-unread message addressed to it. -/
theorem unread_read_drop_counterexample :
    Reachable (doSend (doSend [] wColl1) wColl2) ∧
    ¬(getUnreadCount (doSend (doSend [] wColl1) wColl2) "b_c" =
      getUnreadCount
        ((getConversation (doSend (doSend [] wColl1) wColl2) "b_c" "a").2.1)
        "b_c" +
        countForPair (doSend (doSend [] wColl1) wColl2)
          (getConversationId "b_c" "a") "b_c") :=
  ⟨Reachable.step (Op.send wColl2)
     (Reachable.step (Op.send wColl1) Reachable.init), by decide⟩

/-- C10: in every reachable store all message endpoints and participant
entries are lowercase-closed, hence the strict comparisons of the unread
endpoint agree with canonical case-insensitive identity. -/
theorem store_lowercase_strict_matches_ci (s : Store) (h : Reachable s) :
    (∀ pc ∈ s,
      (∀ m ∈ pc.2.messages,
        toLowerCase m.«from» = m.«from» ∧ toLowerCase m.«to» = m.«to») ∧
      (∀ p ∈ pc.2.participants, toLowerCase p = p)) ∧
    (∀ w, getUnreadCount s w = unreadSpec s w) := by
  have hinv := reachable_storeInv s h
  exact ⟨fun pc hpc => ⟨fun m hm => (hinv.2 pc hpc).2.1 m hm,
    (hinv.2 pc hpc).2.2⟩, fun w => unreadCount_eq_spec s hinv w⟩

/-- Witness for C10: the store after a send with an uppercase sender. -/
theorem store_lowercase_strict_matches_ci_witness :
    (∀ pc ∈ doSend [] wSend2,
      (∀ m ∈ pc.2.messages,
        toLowerCase m.«from» = m.«from» ∧ toLowerCase m.«to» = m.«to») ∧
      (∀ p ∈ pc.2.participants, toLowerCase p = p)) ∧
    (∀ w, getUnreadCount (doSend [] wSend2) w =
      unreadSpec (doSend [] wSend2) w) :=
  store_lowercase_strict_matches_ci (doSend [] wSend2)
    (Reachable.step (Op.send wSend2) Reachable.init)

theorem insertUser_inserted (uw : String) (acc : List (String × AvailableUser))
    (a : Participant)
    (h : (toLowerCase a.walletAddress != uw &&
        !(acc.any (fun q => q.1 == toLowerCase a.walletAddress))) = true) :
    insertUser uw acc a = acc ++ [(toLowerCase a.walletAddress, userOf a)] := by
  unfold insertUser
  dsimp only
  rw [if_pos h]

theorem insertUser_skipped (uw : String) (acc : List (String × AvailableUser))
    (a : Participant)
    (h : ¬(toLowerCase a.walletAddress != uw &&
        !(acc.any (fun q => q.1 == toLowerCase a.walletAddress))) = true) :
    insertUser uw acc a = acc := by
  unfold insertUser
  dsimp only
  rw [if_neg h]

theorem insert_skip_cases (uw : String) (acc : List (String × AvailableUser))
    (a : Participant)
    (hcond : ¬(toLowerCase a.walletAddress != uw &&
        !(acc.any (fun q => q.1 == toLowerCase a.walletAddress))) = true) :
    toLowerCase a.walletAddress = uw ∨
      acc.any (fun q => q.1 == toLowerCase a.walletAddress) = true := by
  by_cases h1 : toLowerCase a.walletAddress = uw
  · exact Or.inl h1
  · right
    by_cases h2 : acc.any (fun q => q.1 == toLowerCase a.walletAddress) = true
    · exact h2
    · exfalso
      apply hcond
      rw [Bool.and_eq_true]
      have hb : acc.any (fun q => q.1 == toLowerCase a.walletAddress) = false := by
        cases hb2 : acc.any (fun q => q.1 == toLowerCase a.walletAddress)
        · rfl
        · exact absurd hb2 h2
      exact ⟨by simpa using h1, by rw [hb]; rfl⟩

theorem insertUser_fold_mem (uw : String) (l : List Participant)
    (acc : List (String × AvailableUser)) (p : String) :
    p ∈ (l.foldl (insertUser uw) acc).map Prod.fst ↔
      p ∈ acc.map Prod.fst ∨
        (p ≠ uw ∧ ∃ q ∈ l, toLowerCase q.walletAddress = p) := by
  induction l generalizing acc with
  | nil => simp
  | cons a t ih =>
    rw [List.foldl_cons]
    by_cases hcond : (toLowerCase a.walletAddress != uw &&
        !(acc.any (fun q => q.1 == toLowerCase a.walletAddress))) = true
    · rw [insertUser_inserted uw acc a hcond, ih]
      have hsplit := hcond
      rw [Bool.and_eq_true] at hsplit
      have hne : toLowerCase a.walletAddress ≠ uw := by
        simpa using hsplit.1
      have hkeys2 : p ∈ (acc ++ [(toLowerCase a.walletAddress, userOf a)]).map
          Prod.fst ↔ p ∈ acc.map Prod.fst ∨ p = toLowerCase a.walletAddress := by
        simp
      rw [hkeys2]
      constructor
      · rintro ((h | h) | ⟨hnu, q, hq, hql⟩)
        · exact Or.inl h
        · exact Or.inr ⟨fun hp => hne (h.symm.trans hp), a,
            List.mem_cons_self a t, h.symm⟩
        · exact Or.inr ⟨hnu, q, List.mem_cons_of_mem a hq, hql⟩
      · rintro (h | ⟨hnu, q, hq, hql⟩)
        · exact Or.inl (Or.inl h)
        · rcases List.mem_cons.1 hq with rfl | hq2
          · exact Or.inl (Or.inr hql.symm)
          · exact Or.inr ⟨hnu, q, hq2, hql⟩
    · rw [insertUser_skipped uw acc a hcond, ih]
      constructor
      · rintro (h | ⟨hnu, q, hq, hql⟩)
        · exact Or.inl h
        · exact Or.inr ⟨hnu, q, List.mem_cons_of_mem a hq, hql⟩
      · rintro (h | ⟨hnu, q, hq, hql⟩)
        · exact Or.inl h
        · rcases List.mem_cons.1 hq with rfl | hq2
          · rcases insert_skip_cases uw acc q hcond with h1 | h2
            · exact absurd (hql.symm.trans h1) hnu
            · left
              rcases List.any_eq_true.1 h2 with ⟨r, hr, hrk⟩
              rw [beq_iff_eq] at hrk
              exact List.mem_map.2 ⟨r, hr, hrk.trans hql⟩
          · exact Or.inr ⟨hnu, q, hq2, hql⟩

theorem insertUser_fold_nodup (uw : String) (l : List Participant)
    (acc : List (String × AvailableUser))
    (h : (acc.map Prod.fst).Nodup) :
    ((l.foldl (insertUser uw) acc).map Prod.fst).Nodup := by
  induction l generalizing acc with
  | nil => exact h
  | cons a t ih =>
    rw [List.foldl_cons]
    by_cases hcond : (toLowerCase a.walletAddress != uw &&
        !(acc.any (fun q => q.1 == toLowerCase a.walletAddress))) = true
    · rw [insertUser_inserted uw acc a hcond]
      apply ih
      have hsplit := hcond
      rw [Bool.and_eq_true] at hsplit
      have hb : acc.any (fun q => q.1 == toLowerCase a.walletAddress) = false := by
        cases hb2 : acc.any (fun q => q.1 == toLowerCase a.walletAddress)
        · rfl
        · rw [hb2] at hsplit
          exact absurd hsplit.2 (by simp)
      rw [List.map_append, List.nodup_append]
      refine ⟨h, by simp, ?_⟩
      intro x hx hx2
      rcases List.mem_map.1 hx with ⟨r, hr, rfl⟩
      have hx3 : r.1 = toLowerCase a.walletAddress := by
        simpa using hx2
      have hco : acc.any (fun q => q.1 == toLowerCase a.walletAddress) = true :=
        List.any_eq_true.2 ⟨r, hr, by simp [hx3]⟩
      rw [hb] at hco
      exact absurd hco (by simp)
    · rw [insertUser_skipped uw acc a hcond]
      exact ih acc h

theorem insertUser_fold_keyed (uw : String) (l : List Participant)
    (acc : List (String × AvailableUser))
    (h : ∀ pc ∈ acc, pc.1 = toLowerCase pc.2.walletAddress) :
    ∀ pc ∈ l.foldl (insertUser uw) acc,
      pc.1 = toLowerCase pc.2.walletAddress := by
  induction l generalizing acc with
  | nil => exact h
  | cons a t ih =>
    rw [List.foldl_cons]
    by_cases hcond : (toLowerCase a.walletAddress != uw &&
        !(acc.any (fun q => q.1 == toLowerCase a.walletAddress))) = true
    · rw [insertUser_inserted uw acc a hcond]
      apply ih
      intro pc hpc
      rcases List.mem_append.1 hpc with hp | hp
      · exact h pc hp
      · rcases List.mem_singleton.1 hp with rfl
        rfl
    · rw [insertUser_skipped uw acc a hcond]
      exact ih acc h

theorem insertUser_fold_first (uw : String) (l : List Participant)
    (acc : List (String × AvailableUser)) (pc : String × AvailableUser)
    (hpc : pc ∈ l.foldl (insertUser uw) acc) :
    pc ∈ acc ∨ (pc.1 ∉ acc.map Prod.fst ∧ pc.1 ≠ uw ∧
      l.find? (fun q => toLowerCase q.walletAddress == pc.1) =
        some { walletAddress := pc.2.walletAddress,
               platformUsername := pc.2.platformUsername,
               gamertags := pc.2.gamertags }) := by
  induction l generalizing acc with
  | nil => exact Or.inl hpc
  | cons a t ih =>
    rw [List.foldl_cons] at hpc
    by_cases hcond : (toLowerCase a.walletAddress != uw &&
        !(acc.any (fun q => q.1 == toLowerCase a.walletAddress))) = true
    · rw [insertUser_inserted uw acc a hcond] at hpc
      have hsplit := hcond
      rw [Bool.and_eq_true] at hsplit
      have hne : toLowerCase a.walletAddress ≠ uw := by
        simpa using hsplit.1
      have hb : acc.any (fun q => q.1 == toLowerCase a.walletAddress) = false := by
        cases hb2 : acc.any (fun q => q.1 == toLowerCase a.walletAddress)
        · rfl
        · rw [hb2] at hsplit
          exact absurd hsplit.2 (by simp)
      rcases ih _ hpc with hin | ⟨hnk, hnu, hfind⟩
      · rcases List.mem_append.1 hin with hin2 | hin2
        · exact Or.inl hin2
        · rcases List.mem_singleton.1 hin2 with rfl
          refine Or.inr ⟨?_, hne, ?_⟩
          · intro hk
            rcases List.mem_map.1 hk with ⟨r, hr, hrk⟩
            have hco : acc.any
                (fun q => q.1 == toLowerCase a.walletAddress) = true :=
              List.any_eq_true.2 ⟨r, hr, by simp [hrk]⟩
            rw [hb] at hco
            exact absurd hco (by simp)
          · simp [List.find?_cons, userOf]
      · have hnk2 : pc.1 ∉ acc.map Prod.fst := fun hk => hnk (by
          rw [List.map_append]
          exact List.mem_append.2 (Or.inl hk))
        have hkne : pc.1 ≠ toLowerCase a.walletAddress := by
          intro he
          apply hnk
          rw [List.map_append]
          refine List.mem_append.2 (Or.inr ?_)
          simp [he]
        refine Or.inr ⟨hnk2, hnu, ?_⟩
        have hp : (toLowerCase a.walletAddress == pc.1) = false :=
          beq_eq_false_iff_ne.2 (fun he => hkne he.symm)
        simp only [List.find?_cons, hp]
        exact hfind
    · rw [insertUser_skipped uw acc a hcond] at hpc
      rcases ih _ hpc with hin | ⟨hnk, hnu, hfind⟩
      · exact Or.inl hin
      · refine Or.inr ⟨hnk, hnu, ?_⟩
        have hp : (toLowerCase a.walletAddress == pc.1) = false := by
          rw [beq_eq_false_iff_ne]
          intro he
          rcases insert_skip_cases uw acc a hcond with h1 | h2
          · exact hnu (he.symm.trans h1)
          · rcases List.any_eq_true.1 h2 with ⟨r, hr, hrk⟩
            rw [beq_iff_eq] at hrk
            exact hnk (List.mem_map.2 ⟨r, hr, hrk.trans he⟩)
        simp only [List.find?_cons, hp]
        exact hfind

theorem foldl_flatMap {α β γ : Type} (l : List α) (h : α → List β)
    (f : γ → β → γ) (init : γ) :
    (l.flatMap h).foldl f init
      = l.foldl (fun acc x => (h x).foldl f acc) init := by
  induction l generalizing init with
  | nil => rfl
  | cons a t ih =>
    rw [List.flatMap_cons, List.foldl_append, List.foldl_cons, ih]

theorem collectUsers_eq_fold (gd : List Game) (uw : String) :
    collectUsers gd uw = (eligibleRoster gd uw).foldl (insertUser uw) [] := by
  unfold collectUsers eligibleRoster
  rw [foldl_flatMap]
  congr 1
  funext acc game
  rw [foldl_flatMap]
  congr 1
  funext acc2 t
  dsimp only
  by_cases hc : ((t.participants.any (fun p => toLowerCase p.walletAddress == uw))
      && t.status != "finished") = true
  · rw [if_pos hc, if_pos hc]
  · rw [if_neg hc, if_neg hc]
    rfl

theorem mem_eligibleRoster (gd : List Game) (uw : String) (q : Participant) :
    q ∈ eligibleRoster gd uw ↔
      ∃ g ∈ gd, ∃ t ∈ g.tournaments, t.status ≠ "finished" ∧
        (∃ r ∈ t.participants, toLowerCase r.walletAddress = uw) ∧
        q ∈ t.participants := by
  unfold eligibleRoster
  rw [List.mem_flatMap]
  constructor
  · rintro ⟨g, hg, hq⟩
    rw [List.mem_flatMap] at hq
    rcases hq with ⟨t, ht, hq2⟩
    by_cases hc : ((t.participants.any
        (fun p => toLowerCase p.walletAddress == uw))
        && t.status != "finished") = true
    · rw [if_pos hc] at hq2
      have hsplit := hc
      rw [Bool.and_eq_true] at hsplit
      refine ⟨g, hg, t, ht, by simpa using hsplit.2, ?_, hq2⟩
      rcases List.any_eq_true.1 hsplit.1 with ⟨r, hr, hrk⟩
      exact ⟨r, hr, by simpa using hrk⟩
    · rw [if_neg hc] at hq2
      simp at hq2
  · rintro ⟨g, hg, t, ht, hst, ⟨r, hr, hrk⟩, hq⟩
    refine ⟨g, hg, ?_⟩
    rw [List.mem_flatMap]
    refine ⟨t, ht, ?_⟩
    have hc : ((t.participants.any
        (fun p => toLowerCase p.walletAddress == uw))
        && t.status != "finished") = true := by
      rw [Bool.and_eq_true]
      exact ⟨List.any_eq_true.2 ⟨r, hr, by simpa using hrk⟩, by simpa using hst⟩
    rw [if_pos hc]
    exact hq

/-- C8: the peers listed for `w` are exactly the wallets sharing some
non-finished tournament with `w` (all comparisons case-insensitive),
excluding `w` itself, with no duplicate wallet identity, and with the first
roster occurrence of each wallet supplying the record that is kept. -/
theorem available_users_eligible_dedup (gd : List Game) (store : Store)
    (w : String) :
    ((listAvailablePeers gd store w).map
      (fun u => toLowerCase u.walletAddress)).Nodup ∧
    (∀ p : String,
      p ∈ (listAvailablePeers gd store w).map
          (fun u => toLowerCase u.walletAddress) ↔
        (p ≠ toLowerCase w ∧ ∃ g ∈ gd, ∃ t ∈ g.tournaments,
          t.status ≠ "finished" ∧
          (∃ r ∈ t.participants,
            toLowerCase r.walletAddress = toLowerCase w) ∧
          (∃ r ∈ t.participants, toLowerCase r.walletAddress = p))) ∧
    (∀ u ∈ listAvailablePeers gd store w,
      (eligibleRoster gd (toLowerCase w)).find?
        (fun q => toLowerCase q.walletAddress = toLowerCase u.walletAddress) =
        some { walletAddress := u.walletAddress,
               platformUsername := u.platformUsername,
               gamertags := u.gamertags }) := by
  have hkeys : (listAvailablePeers gd store w).map
      (fun u => toLowerCase u.walletAddress)
      = (collectUsers gd (toLowerCase w)).map Prod.fst := by
    unfold listAvailablePeers
    rw [List.map_map]
    refine List.map_congr_left (fun pc hpc => ?_)
    have hkeyed := insertUser_fold_keyed (toLowerCase w)
      (eligibleRoster gd (toLowerCase w)) [] (by simp) pc
      (by rw [← collectUsers_eq_fold]; exact hpc)
    exact hkeyed.symm
  refine ⟨?_, ?_, ?_⟩
  · rw [hkeys, collectUsers_eq_fold]
    exact insertUser_fold_nodup _ _ [] (by simp)
  · intro p
    rw [hkeys, collectUsers_eq_fold, insertUser_fold_mem]
    constructor
    · rintro (h | ⟨hne, q, hq, hql⟩)
      · simp at h
      · rcases (mem_eligibleRoster gd (toLowerCase w) q).1 hq with
          ⟨g, hg, t, ht, hst, hpart, hqt⟩
        exact ⟨hne, g, hg, t, ht, hst, hpart, q, hqt, hql⟩
    · rintro ⟨hne, g, hg, t, ht, hst, hpart, q, hqt, hql⟩
      exact Or.inr ⟨hne, q, (mem_eligibleRoster gd (toLowerCase w) q).2
        ⟨g, hg, t, ht, hst, hpart, hqt⟩, hql⟩
  · intro u hu
    unfold listAvailablePeers at hu
    rcases List.mem_map.1 hu with ⟨pc, hpc, rfl⟩
    have hfirst := insertUser_fold_first (toLowerCase w)
      (eligibleRoster gd (toLowerCase w)) [] pc
      (by rw [← collectUsers_eq_fold]; exact hpc)
    rcases hfirst with h | ⟨_, _, hfind⟩
    · simp at h
    · have hkeyed := insertUser_fold_keyed (toLowerCase w)
        (eligibleRoster gd (toLowerCase w)) [] (by simp) pc
        (by rw [← collectUsers_eq_fold]; exact hpc)
      dsimp only
      rw [← hkeyed]
      exact hfind

theorem conversationUnread_eq_countForPair (store : Store) (w peer : String) :
    conversationUnread store (toLowerCase w) peer =
      countForPair store (getConversationId w peer) w := by
  unfold conversationUnread countForPair convMessages
  rw [getConversationId_lower_left]
  cases findConv store (getConversationId w peer) with
  | none => rfl
  | some c => rfl

/-- C9 (amended): each element of the `users` array serializes to exactly the
keys `walletAddress`, `platformUsername`, `gamertags`, `unreadCount` (the
specification's `displayName` and `handles` do not exist on the wire), and
its `unreadCount` is the per-conversation unread count of the requesting
wallet against that peer. -/
theorem available_users_shape_and_unread (gd : List Game) (store : Store)
    (w : String) (u : UserWithUnread) (hu : u ∈ listAvailablePeers gd store w) :
    (serializeUser u).map Prod.fst =
      ["walletAddress", "platformUsername", "gamertags", "unreadCount"] ∧
    u.unreadCount = countForPair store (getConversationId w u.walletAddress) w := by
  refine ⟨rfl, ?_⟩
  unfold listAvailablePeers at hu
  rcases List.mem_map.1 hu with ⟨pc, hpc, rfl⟩
  dsimp only
  exact conversationUnread_eq_countForPair store w pc.2.walletAddress

/-- Witness for C9 at the concrete roster `gd0`. -/
theorem available_users_shape_and_unread_witness :
    userB ∈ listAvailablePeers gd0 [] "A" ∧
    ((serializeUser userB).map Prod.fst =
      ["walletAddress", "platformUsername", "gamertags", "unreadCount"] ∧
     userB.unreadCount =
       countForPair [] (getConversationId "A" userB.walletAddress) "A") :=
  ⟨by decide, available_users_shape_and_unread gd0 [] "A" userB (by decide)⟩

/-- Counterexample to C9 as stated: the serialized user records carry the
keys `platformUsername` and `gamertags`, not the `displayName` and `handles`
the specification's interface table promises. -/
theorem available_users_shape_counterexample :
    (listAvailablePeers gd0 [] "A").map
      (fun u => (serializeUser u).map Prod.fst) =
      [["walletAddress", "platformUsername", "gamertags", "unreadCount"]] ∧
    ¬["walletAddress", "displayName", "handles", "unreadCount"] ∈
      (listAvailablePeers gd0 [] "A").map
        (fun u => (serializeUser u).map Prod.fst) :=
  ⟨by decide, by decide⟩
